import Mathlib

/-!
# Verification of poker-helper's core algorithms (src/lib/algorithm.ts)

Shallow embedding of the two engines of the repository:

* the chip-allocation engine (`assignChipValues`, `solveGroup`,
  `computeQuantityCombinations`, `calculateCombinations`), and
* the settlement engine (`calculateSettlement`).

Modelling conventions, used throughout:

* JavaScript numbers are modelled as exact rationals (`ℚ`).  All the
  quantities involved are currency amounts and small counts, for which the
  source treats arithmetic as exact; binary floating-point noise is outside
  the scope of this development.
* `Math.round x` is modelled as `⌊x + 1/2⌋` (JavaScript rounds half toward
  +∞, e.g. `Math.round 2.5 = 3`, `Math.round (-2.5) = -2`), `Math.floor`
  as `⌊x⌋`.
* Division by zero yields `0` in `ℚ`, where JavaScript produces
  `Infinity`/`NaN`.  This is not harmless everywhere: for sub-half-cent
  blinds the assigned chip values can round to 0, a zero value then reaches
  a division inside `solveGroup`, and the source (IEEE-754) goes on to
  produce `Infinity` quantities while this model fails the `qty > 0` check
  and returns the empty result.  Where that divergence decides a claim it
  is recorded as such rather than proved away.
* `Array.prototype.sort` with a numeric comparator is modelled as a stable
  sort (`List.insertionSort`), which is what ECMAScript guarantees.
* JS field names that are Lean keywords are renamed (`from`/`to` of a
  settlement transaction become `src`/`dst`).
-/

set_option maxRecDepth 4000

/-- JavaScript's `Math.round`: round half toward positive infinity. -/
def jsRound (x : ℚ) : ℚ := ((⌊x + 1/2⌋ : ℤ) : ℚ)

/-- JavaScript's `Math.floor`. -/
def jsFloor (x : ℚ) : ℚ := ((⌊x⌋ : ℤ) : ℚ)

/-- `function round2(n) { return Math.round(n * 100) / 100 }` -/
def round2 (n : ℚ) : ℚ := jsRound (n * 100) / 100

/-- `const NICE_MULTIPLIERS = [1, 2, 5, 10, 20, 50, 100, 200, 500, 1000]` -/
def NICE_MULTIPLIERS : List ℚ := [1, 2, 5, 10, 20, 50, 100, 200, 500, 1000]

/-- The `for (let i = 2; i < n; i++)` loop of `assignChipValues`: `k` is the
number of positions still to fill, `values` the array built so far, `prev`
the most recently pushed value.  Each step pushes either the first nice
value exceeding `prev` that is not already in `values`, or, when none
exists, `round2(prev * 2)`. -/
def assignLoop (niceValues : List ℚ) : ℕ → List ℚ → ℚ → List ℚ
  | 0, values, _ => values
  | k + 1, values, prev =>
    match niceValues.find? (fun v => decide (prev < v ∧ v ∉ values)) with
    | some next => assignLoop niceValues k (values ++ [next]) next
    | none =>
      let fallback := round2 (prev * 2)
      assignLoop niceValues k (values ++ [fallback]) fallback

/-- `export function assignChipValues(n, smallBlind, bigBlind)` -/
def assignChipValues (n : ℕ) (smallBlind bigBlind : ℚ) : List ℚ :=
  if n = 0 then []
  else if n = 1 then [smallBlind]
  else
    assignLoop (NICE_MULTIPLIERS.map (fun m => round2 (m * smallBlind)))
      (n - 2) [smallBlind, bigBlind] bigBlind

/-- The `for (let pos = 0; pos < m - 2; pos++)` loop of `solveGroup`,
assigning `q[chipIdx]` for `chipIdx = m-1` down to `2`.  The first argument
is the current `chipIdx`; the loop stops when it drops below `2`.  Returns
`none` on the `remaining <= 0` early exit, otherwise the final `remaining`
and the assigned quantities `[q[2], …, q[m-1]]` in index order. -/
def tailLoop (units : List ℚ) : ℕ → ℚ → Option (ℚ × List ℚ)
  | 0, remaining => some (remaining, [])
  | 1, remaining => some (remaining, [])
  | chipIdx + 2, remaining =>
    let u := units.getD (chipIdx + 2) 0
    let share := remaining / ((chipIdx : ℚ) + 2)
    let idealQty := jsRound (share / u)
    let maxQty := jsFloor ((remaining - 1) / u)
    let qty := max 1 (min idealQty maxQty)
    let remaining2 := remaining - qty * u
    if remaining2 ≤ 0 then none
    else
      match tailLoop units (chipIdx + 1) remaining2 with
      | none => none
      | some (r, qs) => some (r, qs ++ [qty])

/-- `function solveGroup(m, values, target, q0Target)`.  Returns `none` for
the source's `null`. -/
def solveGroup (m : ℕ) (values : List ℚ) (target : ℚ) (q0Target : ℚ) :
    Option (List ℚ) :=
  if m = 0 then some []
  else if m = 1 then
    let qty := jsRound (target / values.getD 0 0)
    if 0 < qty then some [qty] else none
  else
    let v0 := values.getD 0 0
    let units := values.map (fun v => round2 (v / v0))
    let N := jsRound (target / v0)
    if N ≤ q0Target then none
    else
      match tailLoop units (m - 1) (N - q0Target) with
      | none => none
      | some (remaining, qtail) =>
        let q1 := jsFloor (remaining / units.getD 1 0)
        let remaining2 := remaining - q1 * units.getD 1 0
        let q0 := q0Target + jsRound remaining2
        if q0 ≤ 0 ∨ q1 ≤ 0 then none
        else
          let q := q0 :: q1 :: qtail
          let totalUnits := (q.zip units).foldl (fun s p => s + p.1 * p.2) 0
          if 1/100 < |totalUnits - N| then none else some q

/-- `function computeQuantityCombinations(n, values, buyIn)`.  `Math.ceil(n/2)`
on the natural `n` is `(n+1)/2`. -/
def computeQuantityCombinations (n : ℕ) (values : List ℚ) (buyIn : ℚ) :
    List (List ℚ × String) :=
  let half := buyIn / 2
  let g1Size := (n + 1) / 2
  let g2Size := n - g1Size
  let g1Values := values.take g1Size
  let g2Values := values.drop g1Size
  let v1_0 := g1Values.getD 0 0
  let N1 := jsRound (half / v1_0)
  let g1Targets :=
    [max 3 (jsRound (N1 * (3/20))), max 4 (jsRound (N1 * (1/5))),
     max 5 (jsRound (N1 * (1/4)))]
  let v2_0 := g2Values.headD 1
  let N2 := jsRound (half / v2_0)
  let g2Targets :=
    [max 1 (jsRound (N2 * (1/10))), max 2 (jsRound (N2 * (1/5))),
     max 3 (jsRound (N2 * (3/10)))]
  let g1Qtys := solveGroup g1Size g1Values half (g1Targets.getD 1 0)
  let g2Qtys :=
    if 0 < g2Size then solveGroup g2Size g2Values half (g2Targets.getD 1 0)
    else some []
  match g1Qtys, g2Qtys with
  | some q1, some q2 => [(q1 ++ q2, "Recommended")]
  | _, _ => []

/-- `export interface ChipAllocation` -/
structure ChipAllocation where
  denomination : ℚ
  quantity : ℚ
  valuePerChip : ℚ
  totalValue : ℚ
deriving DecidableEq

/-- `export interface Combination` -/
structure Combination where
  id : String
  name : String
  allocations : List ChipAllocation
  targetTotal : ℚ
  actualTotal : ℚ
deriving DecidableEq

/-- `export function calculateCombinations(chips, buyIn, smallBlind, bigBlind)`.
`[...chips].sort((a, b) => a - b)` is a stable ascending sort. -/
def calculateCombinations (chips : List ℚ) (buyIn smallBlind bigBlind : ℚ) :
    List Combination :=
  if chips.length = 0 ∨ buyIn ≤ 0 ∨ smallBlind ≤ 0 ∨ bigBlind ≤ 0 then []
  else
    let sorted := List.insertionSort (fun a b => a ≤ b) chips
    let n := sorted.length
    let values := assignChipValues n smallBlind bigBlind
    let combos := computeQuantityCombinations n values buyIn
    combos.enum.map (fun p =>
      let idx := p.1
      let quantities := p.2.1
      let allocations := sorted.enum.map (fun q =>
        { denomination := q.2
          quantity := quantities.getD q.1 0
          valuePerChip := values.getD q.1 0
          totalValue := round2 (quantities.getD q.1 0 * values.getD q.1 0) :
            ChipAllocation })
      let actualTotal :=
        round2 (allocations.foldl (fun sum a => sum + a.totalValue) 0)
      { id := "combo-" ++ toString (idx + 1)
        name := p.2.2
        allocations := allocations
        targetTotal := buyIn
        actualTotal := actualTotal : Combination })

/-! ## Settlement engine (second half of `algorithm.ts`) -/

/-- `export interface Player` -/
structure Player where
  id : String
  name : String
  buyIns : List ℚ
  finalBalance : ℚ

/-- `export interface Transaction`.  The source's fields `from`/`to` are
renamed `src`/`dst` (`from` is a Lean keyword). -/
structure Transaction where
  src : String
  dst : String
  amount : ℚ
deriving DecidableEq

/-- `export interface PlayerSummary` -/
structure PlayerSummary where
  name : String
  totalBuyIn : ℚ
  finalBalance : ℚ
  net : ℚ
deriving DecidableEq

/-- One entry of the `debtors` / `creditors` working lists: `{name, amount}`. -/
structure Debt where
  name : String
  amount : ℚ
deriving DecidableEq

/-- JavaScript's `String.prototype.trim`: strip whitespace from both ends. -/
def jsTrim (s : String) : String :=
  ⟨((s.data.dropWhile Char.isWhitespace).reverse.dropWhile
      Char.isWhitespace).reverse⟩

/-- Rounding a number's distance to its own rounding gives `0`:
`round2 (x - round2 x) = 0`. -/
theorem round2_sub_round2 (x : ℚ) : round2 (x - round2 x) = 0 := by
  unfold round2 jsRound
  have h1 : (x - ((⌊x * 100 + 1/2⌋ : ℤ) : ℚ) / 100) * 100 + 1/2 =
      (x * 100 + 1/2) - ((⌊x * 100 + 1/2⌋ : ℤ) : ℚ) := by ring
  rw [h1, Int.self_sub_floor, Int.floor_fract]
  norm_num

/-- In each iteration of the settlement `while` loop, at least one of the two
current parties' remainders drops below the `0.005` epsilon, so at least one
of `i`, `j` advances. -/
theorem settle_advance (d c : ℚ) :
    round2 (d - round2 (min d c)) < 1/200 ∨
      round2 (c - round2 (min d c)) < 1/200 := by
  rcases le_total d c with h | h
  · left
    rw [min_eq_left h, round2_sub_round2]
    norm_num
  · right
    rw [min_eq_right h, round2_sub_round2]
    norm_num

/-- The iterations of the `while (i < debtors.length && j < creditors.length)`
loop during which the debtor cursor `i` stays on the debtor `d`: each
iteration matches `d` against the current creditor, records a transaction
when the transferred amount exceeds `0.005`, and advances `j` (dropping or
shrinking the creditor head) until either `d`'s remainder drops below
`0.005` (then `i` advances: return) or the creditors run out (loop exit).
Returns the recorded transactions and the remaining creditor list.  The
branch in which neither remainder drops below `0.005` is unreachable
(`settle_advance`): every iteration advances at least one cursor. -/
def settleOne (d : Debt) : List Debt → List Transaction × List Debt
  | [] => ([], [])
  | c :: cs =>
    let amount := round2 (min d.amount c.amount)
    let t : List Transaction :=
      if 1/200 < amount then [⟨d.name, c.name, amount⟩] else []
    let d2 := round2 (d.amount - amount)
    let c2 := round2 (c.amount - amount)
    if hd : d2 < 1/200 then
      if c2 < 1/200 then (t, cs)
      else (t, { c with amount := c2 } :: cs)
    else
      if hc : c2 < 1/200 then
        let r := settleOne { d with amount := d2 } cs
        (t ++ r.1, r.2)
      else absurd ((settle_advance d.amount c.amount).resolve_left hd) hc

/-- The full `while` loop of `calculateSettlement`: debtors are processed in
order (`i` advances through `ds`), each one matched against the remaining
creditors by `settleOne`.  When the creditors run out, `settleOne` returns
`([], [])` for every remaining debtor, which is the loop's exit. -/
def settleLoop : List Debt → List Debt → List Transaction
  | [], _ => []
  | d :: ds, cs =>
    let r := settleOne d cs
    r.1 ++ settleLoop ds r.2

/-- The record returned by `calculateSettlement`. -/
structure SettlementResult where
  transactions : List Transaction
  summaries : List PlayerSummary
deriving DecidableEq

/-- The `const summaries = players.map(...)` of `calculateSettlement`
(factored out as a named definition for reuse in the lemmas below). -/
def mkSummaries (players : List Player) : List PlayerSummary :=
  players.map (fun p =>
    let totalBuyIn := round2 (p.buyIns.foldl (fun s b => s + b) 0)
    { name := if jsTrim p.name = "" then "Player" else jsTrim p.name
      totalBuyIn := totalBuyIn
      finalBalance := p.finalBalance
      net := round2 (p.finalBalance - totalBuyIn) : PlayerSummary })

/-- `const debtors = summaries.filter(p => p.net < -0.005).map(...)`. -/
def mkDebtors (summaries : List PlayerSummary) : List Debt :=
  (summaries.filter (fun p => p.net < -(1/200))).map
    (fun p => { name := p.name, amount := -p.net : Debt })

/-- `const creditors = summaries.filter(p => p.net > 0.005).map(...)`. -/
def mkCreditors (summaries : List PlayerSummary) : List Debt :=
  (summaries.filter (fun p => 1/200 < p.net)).map
    (fun p => { name := p.name, amount := p.net : Debt })

/-- `export function calculateSettlement(players)`.  The two
`.sort((a, b) => b.amount - a.amount)` calls are stable descending sorts. -/
def calculateSettlement (players : List Player) : SettlementResult :=
  let summaries := mkSummaries players
  let debtorsSorted := List.insertionSort (fun a b => b.amount < a.amount)
    (mkDebtors summaries)
  let creditorsSorted := List.insertionSort (fun a b => b.amount < a.amount)
    (mkCreditors summaries)
  { transactions := settleLoop debtorsSorted creditorsSorted
    summaries := summaries }

/-- Sum of the amounts of a transaction list. -/
def txSum (ts : List Transaction) : ℚ := (ts.map Transaction.amount).sum

/-- Sum of the amounts of a debtor/creditor list. -/
def debtSum (l : List Debt) : ℚ := (l.map Debt.amount).sum

unseal Rat.add Rat.mul Rat.inv Rat.sub in
example :
    (calculateSettlement [⟨"1", "A", [20], 35⟩, ⟨"2", "B", [20], 5⟩]).transactions
      = [⟨"B", "A", 15⟩] := by decide

unseal Rat.add Rat.mul Rat.inv Rat.sub in
example : assignChipValues 2 1 2 = [1, 2] := by decide
unseal Rat.add Rat.mul Rat.inv Rat.sub in
example : assignChipValues 3 (1/10) (1/5) = [1/10, 1/5, 1/2] := by decide

/-! ## Spec-side definitions

These definitions follow the words of the specification (not the source);
they exist to be compared with the source-derived definitions above. -/

/-- Modelled from the spec (claim C3 wording): the next chip value is "the
first value on the fixed list `niceList` that exceeds the previously
assigned value and has not been used yet, or, when no such value exists,
double the previously assigned value rounded to 2 decimals". -/
def specNextValue (niceList : List ℚ) (used : List ℚ) (prev : ℚ) : ℚ :=
  match niceList.find? (fun v => decide (prev < v ∧ v ∉ used)) with
  | some v => v
  | none => round2 (prev * 2)

/-- Modelled from the spec: the values from the third-smallest upward, each
produced by `specNextValue` from the values assigned so far. -/
def specTail (niceList : List ℚ) : ℕ → List ℚ → ℚ → List ℚ
  | 0, _, _ => []
  | k + 1, used, prev =>
    let v := specNextValue niceList used prev
    v :: specTail niceList k (used ++ [v]) v

/-- Modelled from the spec (claim C3 as stated): first element `smallBlind`,
second `bigBlind`, each subsequent element drawn from the fixed list of
multiples `{1,2,5,10,20,50,100,200,500,1000}` of `smallBlind` (taken
exactly, without rounding). -/
def specAssignExact (n : ℕ) (smallBlind bigBlind : ℚ) : List ℚ :=
  smallBlind :: bigBlind ::
    specTail (NICE_MULTIPLIERS.map (fun m => m * smallBlind)) (n - 2)
      [smallBlind, bigBlind] bigBlind

/-- Modelled from the spec, amended: as `specAssignExact`, but each multiple
of `smallBlind` on the fixed list is rounded to 2 decimals. -/
def specAssignRounded (n : ℕ) (smallBlind bigBlind : ℚ) : List ℚ :=
  smallBlind :: bigBlind ::
    specTail (NICE_MULTIPLIERS.map (fun m => round2 (m * smallBlind))) (n - 2)
      [smallBlind, bigBlind] bigBlind

/-! ## Lemmas about `assignChipValues` -/

theorem assignLoop_eq_specTail (niceList : List ℚ) :
    ∀ (k : ℕ) (values : List ℚ) (prev : ℚ),
      assignLoop niceList k values prev =
        values ++ specTail niceList k values prev := by
  intro k
  induction k with
  | zero => intro values prev; simp [assignLoop, specTail]
  | succ k ih =>
    intro values prev
    rw [assignLoop, specTail]
    simp only [specNextValue]
    cases hf : niceList.find? (fun v => decide (prev < v ∧ v ∉ values)) with
    | some next => simp [ih]
    | none => simp [ih]

theorem assignChipValues_eq_specAssignRounded (n : ℕ) (sb bb : ℚ)
    (hn : 2 ≤ n) :
    assignChipValues n sb bb = specAssignRounded n sb bb := by
  have h0 : n ≠ 0 := by omega
  have h1 : n ≠ 1 := by omega
  rw [assignChipValues, if_neg h0, if_neg h1, assignLoop_eq_specTail,
    specAssignRounded]
  rfl

theorem assignLoop_length (niceList : List ℚ) :
    ∀ (k : ℕ) (values : List ℚ) (prev : ℚ),
      (assignLoop niceList k values prev).length = values.length + k := by
  intro k
  induction k with
  | zero => intro values prev; simp [assignLoop]
  | succ k ih =>
    intro values prev
    rw [assignLoop]
    cases hf : niceList.find? (fun v => decide (prev < v ∧ v ∉ values)) with
    | some next => rw [ih]; simp; omega
    | none => rw [ih]; simp; omega

theorem assignChipValues_length (n : ℕ) (sb bb : ℚ) :
    (assignChipValues n sb bb).length = n := by
  rw [assignChipValues]
  rcases Nat.lt_or_ge n 2 with h | h
  · interval_cases n <;> simp
  · have h0 : n ≠ 0 := by omega
    have h1 : n ≠ 1 := by omega
    rw [if_neg h0, if_neg h1, assignLoop_length]
    simp
    omega

/-- When the previous value is at least half a cent, the doubling fallback
`round2 (prev * 2)` strictly increases it. -/
theorem round2_double_gt (p : ℚ) (hp : 1/200 ≤ p) : p < round2 (p * 2) := by
  unfold round2 jsRound
  have h1 : p * 2 * 100 + 1/2 - 1 < (⌊p * 2 * 100 + 1/2⌋ : ℚ) :=
    Int.sub_one_lt_floor (p * 2 * 100 + 1/2)
  rw [div_eq_mul_inv]
  rw [show (100 : ℚ)⁻¹ = 1/100 by norm_num]
  nlinarith

/-- Invariant step for `assignLoop`: a strictly increasing accumulator
whose last element is `prev ≥ 0.005` stays strictly increasing. -/
theorem assignLoop_chain (niceList : List ℚ) :
    ∀ (k : ℕ) (values : List ℚ) (prev : ℚ),
      values.Chain' (· < ·) → values.getLast? = some prev → 1/200 ≤ prev →
        (assignLoop niceList k values prev).Chain' (· < ·) := by
  intro k
  induction k with
  | zero => intro values prev hc _ _; simpa [assignLoop] using hc
  | succ k ih =>
    intro values prev hc hlast hprev
    rw [assignLoop]
    cases hf : niceList.find? (fun v => decide (prev < v ∧ v ∉ values)) with
    | some next =>
      have hnext : prev < next := by
        have := List.find?_some hf
        simp at this
        exact this.1
      refine ih (values ++ [next]) next ?_ ?_ ?_
      · refine hc.append (List.chain'_singleton next) ?_
        intro x hx y hy
        simp [hlast] at hx
        simp at hy
        subst hx hy
        exact hnext
      · exact List.getLast?_concat values
      · linarith
    | none =>
      have hfb : prev < round2 (prev * 2) := round2_double_gt prev hprev
      refine ih (values ++ [round2 (prev * 2)]) (round2 (prev * 2)) ?_ ?_ ?_
      · refine hc.append (List.chain'_singleton _) ?_
        intro x hx y hy
        simp [hlast] at hx
        simp at hy
        subst hx hy
        exact hfb
      · exact List.getLast?_concat values
      · linarith

theorem assignChipValues_chain (n : ℕ) (sb bb : ℚ)
    (hsb : sb < bb) (hbb : 1/200 ≤ bb) :
    (assignChipValues n sb bb).Chain' (· < ·) := by
  rw [assignChipValues]
  rcases Nat.lt_or_ge n 2 with h | h
  · interval_cases n <;> simp
  · have h0 : n ≠ 0 := by omega
    have h1 : n ≠ 1 := by omega
    rw [if_neg h0, if_neg h1]
    refine assignLoop_chain _ _ [sb, bb] bb ?_ ?_ hbb
    · simpa using hsb
    · rfl

/-! ## Lemmas about `solveGroup` and `computeQuantityCombinations` -/

/-- A rational that is (the cast of) an integer. -/
def isInt (q : ℚ) : Prop := ∃ k : ℤ, q = (k : ℚ)

theorem isInt_jsRound (x : ℚ) : isInt (jsRound x) := ⟨⌊x + 1/2⌋, rfl⟩

theorem isInt_jsFloor (x : ℚ) : isInt (jsFloor x) := ⟨⌊x⌋, rfl⟩

theorem isInt_add {a b : ℚ} (ha : isInt a) (hb : isInt b) : isInt (a + b) := by
  obtain ⟨j, rfl⟩ := ha
  obtain ⟨k, rfl⟩ := hb
  exact ⟨j + k, by push_cast; ring⟩

theorem isInt_max {a b : ℚ} (ha : isInt a) (hb : isInt b) : isInt (max a b) := by
  obtain ⟨j, rfl⟩ := ha
  obtain ⟨k, rfl⟩ := hb
  exact ⟨max j k, by push_cast; rfl⟩

theorem isInt_min {a b : ℚ} (ha : isInt a) (hb : isInt b) : isInt (min a b) := by
  obtain ⟨j, rfl⟩ := ha
  obtain ⟨k, rfl⟩ := hb
  exact ⟨min j k, by push_cast; rfl⟩

theorem isInt_ofNat (n : ℕ) : isInt (n : ℚ) := ⟨n, by push_cast; rfl⟩

/-- An integer-valued rational that is positive is at least 1. -/
theorem isInt_pos_one_le {q : ℚ} (hq : isInt q) (h : 0 < q) : 1 ≤ q := by
  obtain ⟨k, rfl⟩ := hq
  have hk : 0 < k := by exact_mod_cast h
  exact_mod_cast hk

theorem tailLoop_mem (units : List ℚ) :
    ∀ (c : ℕ) (r r' : ℚ) (qs : List ℚ), tailLoop units c r = some (r', qs) →
      ∀ q ∈ qs, isInt q ∧ 1 ≤ q := by
  intro c
  induction c using Nat.strong_induction_on with
  | _ c ih =>
    match c with
    | 0 =>
      intro r r' qs h q hq
      simp [tailLoop] at h
      rw [h.2] at hq
      simp at hq
    | 1 =>
      intro r r' qs h q hq
      simp [tailLoop] at h
      rw [h.2] at hq
      simp at hq
    | c + 2 =>
      intro r r' qs h q hq
      rw [tailLoop] at h
      split at h
      · exact absurd h (by simp)
      · set u := units.getD (c + 2) 0 with hu
        set qty := max 1 (min (jsRound (r / ((c : ℚ) + 2) / u))
          (jsFloor ((r - 1) / u))) with hqty
        cases hrec : tailLoop units (c + 1) (r - qty * u) with
        | none => rw [hrec] at h; exact absurd h (by simp)
        | some p =>
          rw [hrec] at h
          simp at h
          rw [← h.2] at hq
          rcases List.mem_append.mp hq with hq' | hq'
          · exact ih (c + 1) (by omega) _ _ _ hrec q hq'
          · have hq'' : q = qty := by simpa using hq'
            subst hq''
            refine ⟨isInt_max ⟨1, by norm_num⟩
              (isInt_min (isInt_jsRound _) (isInt_jsFloor _)), le_max_left 1 _⟩

theorem tailLoop_length (units : List ℚ) :
    ∀ (c : ℕ) (r r' : ℚ) (qs : List ℚ), tailLoop units c r = some (r', qs) →
      qs.length = c - 1 := by
  intro c
  induction c using Nat.strong_induction_on with
  | _ c ih =>
    match c with
    | 0 =>
      intro r r' qs h
      simp [tailLoop] at h
      rw [h.2]
      rfl
    | 1 =>
      intro r r' qs h
      simp [tailLoop] at h
      rw [h.2]
      rfl
    | c + 2 =>
      intro r r' qs h
      rw [tailLoop] at h
      split at h
      · exact absurd h (by simp)
      · set u := units.getD (c + 2) 0 with hu
        set qty := max 1 (min (jsRound (r / ((c : ℚ) + 2) / u))
          (jsFloor ((r - 1) / u))) with hqty
        cases hrec : tailLoop units (c + 1) (r - qty * u) with
        | none => rw [hrec] at h; exact absurd h (by simp)
        | some p =>
          rw [hrec] at h
          simp at h
          rw [← h.2]
          have := ih (c + 1) (by omega) _ _ _ hrec
          simp [this]

theorem solveGroup_mem (m : ℕ) (values : List ℚ) (target q0Target : ℚ)
    (qs : List ℚ) (hq0 : isInt q0Target)
    (h : solveGroup m values target q0Target = some qs) :
    ∀ q ∈ qs, isInt q ∧ 1 ≤ q := by
  intro q hq
  simp only [solveGroup] at h
  split at h
  · injection h with h
    subst h
    simp at hq
  · split at h
    · split at h
      · rename_i hpos
        injection h with h
        subst h
        have hq' := List.mem_singleton.mp hq
        subst hq'
        exact ⟨isInt_jsRound _, isInt_pos_one_le (isInt_jsRound _) hpos⟩
      · exact Option.noConfusion h
    · split at h
      · exact Option.noConfusion h
      · split at h
        · exact Option.noConfusion h
        · rename_i r' qtail' heq
          split at h
          · exact Option.noConfusion h
          · rename_i hq01
            push_neg at hq01
            split at h
            · exact Option.noConfusion h
            · injection h with h
              subst h
              rcases List.mem_cons.mp hq with hq' | hq'
              · subst hq'
                exact ⟨isInt_add hq0 (isInt_jsRound _),
                  isInt_pos_one_le (isInt_add hq0 (isInt_jsRound _))
                    (by linarith [hq01.1])⟩
              · rcases List.mem_cons.mp hq' with hq'' | hq''
                · subst hq''
                  exact ⟨isInt_jsFloor _,
                    isInt_pos_one_le (isInt_jsFloor _) (by linarith [hq01.2])⟩
                · exact tailLoop_mem _ _ _ _ _ heq q hq''

theorem solveGroup_length (m : ℕ) (values : List ℚ) (target q0Target : ℚ)
    (qs : List ℚ) (h : solveGroup m values target q0Target = some qs) :
    qs.length = m := by
  simp only [solveGroup] at h
  split at h
  · injection h with h
    subst h
    simp
    omega
  · split at h
    · split at h
      · injection h with h
        subst h
        simp
        omega
      · exact Option.noConfusion h
    · split at h
      · exact Option.noConfusion h
      · split at h
        · exact Option.noConfusion h
        · rename_i r' qtail' heq
          split at h
          · exact Option.noConfusion h
          · split at h
            · exact Option.noConfusion h
            · injection h with h
              subst h
              have := tailLoop_length _ _ _ _ _ heq
              simp [this]
              omega

theorem getD_one_of_three (a b c : ℚ) : List.getD [a, b, c] 1 0 = b := rfl

/-- `computeQuantityCombinations` returns either no candidate or exactly one
candidate named "Recommended", whose quantity list has one entry per chip,
every entry an integer at least 1. -/
theorem computeQuantityCombinations_cases (n : ℕ) (values : List ℚ)
    (buyIn : ℚ) :
    computeQuantityCombinations n values buyIn = [] ∨
      ∃ qs, computeQuantityCombinations n values buyIn =
          [(qs, "Recommended")] ∧
        qs.length = n ∧ ∀ q ∈ qs, isInt q ∧ 1 ≤ q := by
  simp only [computeQuantityCombinations]
  split
  · rename_i q1 q2 hg1 hg2
    rw [getD_one_of_three] at hg1
    right
    have hl1 := solveGroup_length _ _ _ _ _ hg1
    have hm1 := solveGroup_mem _ _ _ _ _
      (isInt_max ⟨4, by norm_num⟩ (isInt_jsRound _)) hg1
    by_cases hsz : 0 < n - (n + 1) / 2
    · rw [if_pos hsz, getD_one_of_three] at hg2
      have hl2 := solveGroup_length _ _ _ _ _ hg2
      have hm2 := solveGroup_mem _ _ _ _ _
        (isInt_max ⟨2, by norm_num⟩ (isInt_jsRound _)) hg2
      refine ⟨q1 ++ q2, rfl, ?_, ?_⟩
      · simp [hl1, hl2]
        omega
      · intro q hq
        rcases List.mem_append.mp hq with hq' | hq'
        · exact hm1 q hq'
        · exact hm2 q hq'
    · rw [if_neg hsz] at hg2
      injection hg2 with hg2
      subst hg2
      refine ⟨q1 ++ [], rfl, ?_, ?_⟩
      · simp [hl1]
        omega
      · intro q hq
        rcases List.mem_append.mp hq with hq' | hq'
        · exact hm1 q hq'
        · simp at hq'
  · left
    rfl

/-- Shape of every `calculateCombinations` result: empty, or one combination
named "Recommended" with id "combo-1", whose allocations are built over the
ascending sort of the input chips from an integer quantity list with one
entry per chip, each at least 1. -/
theorem calculateCombinations_shape (chips : List ℚ) (buyIn sb bb : ℚ) :
    calculateCombinations chips buyIn sb bb = [] ∨
      ∃ qs : List ℚ,
        qs.length = chips.length ∧ (∀ q ∈ qs, isInt q ∧ 1 ≤ q) ∧
        ∃ t : ℚ,
        calculateCombinations chips buyIn sb bb =
          [⟨"combo-" ++ toString (0 + 1), "Recommended",
            (List.insertionSort (fun a b => a ≤ b) chips).enum.map (fun p =>
              ⟨p.2, qs.getD p.1 0,
               (assignChipValues
                 (List.insertionSort (fun a b => a ≤ b) chips).length sb
                 bb).getD p.1 0,
               round2 (qs.getD p.1 0 *
                 (assignChipValues
                   (List.insertionSort (fun a b => a ≤ b) chips).length sb
                   bb).getD p.1 0)⟩),
            buyIn, t⟩] := by
  simp only [calculateCombinations]
  split
  · exact Or.inl rfl
  · rcases computeQuantityCombinations_cases
        (List.insertionSort (fun a b => a ≤ b) chips).length
        (assignChipValues
          (List.insertionSort (fun a b => a ≤ b) chips).length sb bb)
        buyIn with hnil | ⟨qs, heq, hlen, hmem⟩
    · rw [hnil]
      exact Or.inl rfl
    · right
      refine ⟨qs, ?_, hmem, ?_⟩
      · rw [hlen]
        exact List.length_insertionSort _ _
      · rw [heq]
        exact ⟨_, rfl⟩

unseal Rat.add Rat.mul Rat.inv Rat.sub in
/-- C7, at the failing input `chips = [1,2,3]`, `buyIn = 20`,
`smallBlind = 0.000001`, `bigBlind = 0.000002` (all positive, so the guard
of `calculateCombinations` passes): the third assigned chip value is 0 —
every rounded nice multiple and the doubling fallback collapse to 0 — and
that 0 is exactly the divisor `values[0]` handed to the large-chip group's
`solveGroup(1, [0], 10, …)` call (`g1Size = 2`, so `g2Values =
values.slice(2) = [0]`).  There the source computes
`qty = Math.round(10 / 0)`, which in JavaScript is `Infinity`; `Infinity >
0` passes the check and the source returns a combination whose third
allocation has `quantity = Infinity` — not an integer ≥ 1, refuting the
claim on the program.  `Infinity` has no rational counterpart: in this
model `10 / 0 = 0` fails the `0 < qty` check instead and the result is
empty, so the refutation itself is not expressible here; this theorem
verifies the in-model prefix of that trace (the zero value and it being
the group-2 divisor). -/
theorem C7_failing_input_divides_by_zero :
    assignChipValues 3 (1/1000000) (1/500000) = [1/1000000, 1/500000, 0] ∧
      ((assignChipValues 3 (1/1000000) (1/500000)).drop ((3 + 1) / 2)).getD
        0 0 = 0 :=
  ⟨by decide, by decide⟩

/-- The denominations of the allocations built by `calculateCombinations`
are exactly the sorted input chips. -/
theorem mkalloc_map_denom (sorted values qs : List ℚ) :
    ((sorted.enum.map (fun p =>
        (⟨p.2, qs.getD p.1 0, values.getD p.1 0,
          round2 (qs.getD p.1 0 * values.getD p.1 0)⟩ : ChipAllocation))).map
      ChipAllocation.denomination) = sorted := by
  rw [List.map_map]
  exact List.enum_map_snd sorted

/-- C5 (amended): the denomination list is sorted ascending (it is *not*
deduplicated) before processing; every returned Combination has exactly one
allocation per occurrence in the supplied chip list (a permutation of it),
ordered by ascending denomination. -/
theorem C5_allocations_sorted_all_chips (chips : List ℚ) (buyIn sb bb : ℚ)
    (combo : Combination)
    (hc : combo ∈ calculateCombinations chips buyIn sb bb) :
    (combo.allocations.map ChipAllocation.denomination).Perm chips ∧
      (combo.allocations.map ChipAllocation.denomination).Sorted
        (fun a b => a ≤ b) := by
  rcases calculateCombinations_shape chips buyIn sb bb with
    hnil | ⟨qs, hlen, hmem, t, heq⟩
  · rw [hnil] at hc
    simp at hc
  · rw [heq] at hc
    have hco := List.mem_singleton.mp hc
    have h1 : combo.allocations.map ChipAllocation.denomination =
        List.insertionSort (fun a b => a ≤ b) chips := by
      rw [hco]
      exact mkalloc_map_denom _ _ _
    rw [h1]
    exact ⟨List.perm_insertionSort _ _, List.sorted_insertionSort _ _⟩

/-- C9 (amended): each of the four conditions the source actually checks —
empty chip list, non-positive buy-in, non-positive small blind,
non-positive big blind — makes `calculateCombinations` return the empty
sequence.  (A big blind not exceeding the small blind is *not* checked.) -/
theorem C9_invalid_inputs_empty (chips : List ℚ) (buyIn sb bb : ℚ)
    (h : chips = [] ∨ buyIn ≤ 0 ∨ sb ≤ 0 ∨ bb ≤ 0) :
    calculateCombinations chips buyIn sb bb = [] := by
  rw [calculateCombinations, if_pos]
  rcases h with h | h
  · exact Or.inl (by rw [h]; rfl)
  · exact Or.inr h

unseal Rat.add Rat.mul Rat.inv Rat.sub in
theorem C9_witness :
    (([] : List ℚ) = [] ∨ (20 : ℚ) ≤ 0 ∨ (1 : ℚ)/10 ≤ 0 ∨ (1 : ℚ)/5 ≤ 0) ∧
      calculateCombinations [] 20 (1/10) (1/5) = [] :=
  ⟨Or.inl rfl, C9_invalid_inputs_empty [] 20 (1/10) (1/5) (Or.inl rfl)⟩

unseal Rat.add Rat.mul Rat.inv Rat.sub in
/-- C9 counterexample: with a big blind (0.05) not exceeding the small
blind (0.10) — and all other inputs valid — the function does *not* return
the empty sequence, contradicting the claim as stated. -/
theorem C9_counterexample :
    ((1 : ℚ)/20 ≤ (1 : ℚ)/10) ∧
      calculateCombinations [1, 2] 20 (1/10) (1/20) ≠ [] := by
  constructor
  · norm_num
  · decide

/-- C10: `calculateCombinations` always returns at most one Combination:
either the empty sequence, or a single Combination named "Recommended"
with id "combo-1". -/
theorem C10_single_recommended (chips : List ℚ) (buyIn sb bb : ℚ) :
    calculateCombinations chips buyIn sb bb = [] ∨
      ∃ combo, calculateCombinations chips buyIn sb bb = [combo] ∧
        combo.name = "Recommended" ∧ combo.id = "combo-1" := by
  rcases calculateCombinations_shape chips buyIn sb bb with
    hnil | ⟨qs, hlen, hmem, t, heq⟩
  · exact Or.inl hnil
  · right
    exact ⟨_, heq, rfl,
      (by decide : ("combo-" ++ toString (0 + 1) : String) = "combo-1")⟩

unseal Rat.add Rat.mul Rat.inv Rat.sub in
theorem C5_witness :
    (((calculateCombinations [1, 2] 20 (1/10) (1/5)).headD
        ⟨"", "", [], 0, 0⟩) ∈ calculateCombinations [1, 2] 20 (1/10) (1/5)) ∧
      ((((calculateCombinations [1, 2] 20 (1/10) (1/5)).headD
          ⟨"", "", [], 0, 0⟩).allocations.map
        ChipAllocation.denomination).Perm [1, 2] ∧
      (((calculateCombinations [1, 2] 20 (1/10) (1/5)).headD
          ⟨"", "", [], 0, 0⟩).allocations.map
        ChipAllocation.denomination).Sorted (fun a b => a ≤ b)) := by
  have h1 : ((calculateCombinations [1, 2] 20 (1/10) (1/5)).headD
      ⟨"", "", [], 0, 0⟩) ∈ calculateCombinations [1, 2] 20 (1/10) (1/5) := by
    decide
  exact ⟨h1, C5_allocations_sorted_all_chips [1, 2] 20 (1/10) (1/5) _ h1⟩

unseal Rat.add Rat.mul Rat.inv Rat.sub in
/-- C5 counterexample: the source does **not** deduplicate.  With the chip
list `[1, 1]` the returned combination has two allocations for the single
distinct denomination 1, so "exactly one entry per distinct supplied
denomination" fails. -/
theorem C5_counterexample :
    ((calculateCombinations [1, 1] 20 (1/10) (1/5)).map
      (fun c => c.allocations.map ChipAllocation.denomination)) = [[1, 1]] ∧
      ¬ ([1, 1] : List ℚ).Nodup ∧ ([1, 1] : List ℚ).dedup = [1] :=
  ⟨by decide, by decide, by decide⟩

/-- C3 (amended): for `n ≥ 2`, positive small blind and `bigBlind >
smallBlind`, `assignChipValues` returns `smallBlind`, then `bigBlind`, then
repeatedly the first entry of the fixed list of multiples
`{1,2,5,10,20,50,100,200,500,1000}` of the small blind, **each rounded to 2
decimals**, that exceeds the previous value and is unused, falling back to
doubling (rounded to 2 decimals). -/
theorem C3_assign_eq_spec_rounded (n : ℕ) (sb bb : ℚ) (hn : 2 ≤ n)
    (hsb : 0 < sb) (hbb : sb < bb) :
    assignChipValues n sb bb = specAssignRounded n sb bb :=
  assignChipValues_eq_specAssignRounded n sb bb hn

theorem C3_witness :
    2 ≤ 3 ∧ ((0 : ℚ) < 1/10) ∧ ((1 : ℚ)/10 < 1/5) ∧
      assignChipValues 3 (1/10) (1/5) = specAssignRounded 3 (1/10) (1/5) :=
  ⟨by norm_num, by norm_num, by norm_num,
    C3_assign_eq_spec_rounded 3 (1/10) (1/5) (by norm_num) (by norm_num)
      (by norm_num)⟩

unseal Rat.add Rat.mul Rat.inv Rat.sub in
/-- C3 counterexample: with `smallBlind = 0.013` the source rounds the nice
multiples to 2 decimals before matching, so the third value is `0.03` =
`round2(2 × 0.013)`, not the exact multiple `0.026` the claim describes. -/
theorem C3_counterexample :
    ((0 : ℚ) < 13/1000) ∧ ((13 : ℚ)/1000 < 1/50) ∧
      assignChipValues 3 (13/1000) (1/50) = [13/1000, 1/50, 3/100] ∧
      specAssignExact 3 (13/1000) (1/50) = [13/1000, 1/50, 13/500] ∧
      assignChipValues 3 (13/1000) (1/50) ≠ specAssignExact 3 (13/1000) (1/50) :=
  ⟨by norm_num, by norm_num, by decide, by decide, by decide⟩

/-- C4 (amended): for `n ≥ 2`, `0 < smallBlind < bigBlind` **and a big
blind of at least half a cent** (`bigBlind ≥ 0.005`), the value sequence
returned by `assignChipValues` is strictly increasing. -/
theorem C4_strictly_increasing (n : ℕ) (sb bb : ℚ) (hn : 2 ≤ n)
    (hsb : 0 < sb) (hbb : sb < bb) (heps : 1/200 ≤ bb) :
    (assignChipValues n sb bb).Chain' (fun a b => a < b) :=
  assignChipValues_chain n sb bb hbb heps

theorem C4_witness :
    2 ≤ 3 ∧ ((0 : ℚ) < 1/10) ∧ ((1 : ℚ)/10 < 1/5) ∧ ((1 : ℚ)/200 ≤ 1/5) ∧
      (assignChipValues 3 (1/10) (1/5)).Chain' (fun a b => a < b) :=
  ⟨by norm_num, by norm_num, by norm_num, by norm_num,
    C4_strictly_increasing 3 (1/10) (1/5) (by norm_num) (by norm_num)
      (by norm_num) (by norm_num)⟩

unseal Rat.add Rat.mul Rat.inv Rat.sub in
/-- C4 counterexample: for sub-cent blinds (`smallBlind = $0.000001`,
`bigBlind = $0.000002`) every rounded nice multiple is 0 and the doubling
fallback also rounds to 0, so the third value is 0 and the sequence is not
strictly increasing. -/
theorem C4_counterexample :
    2 ≤ 3 ∧ ((0 : ℚ) < 1/1000000) ∧ ((1 : ℚ)/1000000 < 1/500000) ∧
      assignChipValues 3 (1/1000000) (1/500000) =
        [1/1000000, 1/500000, 0] ∧
      ¬ (assignChipValues 3 (1/1000000) (1/500000)).Chain'
          (fun a b => a < b) := by
  refine ⟨by norm_num, by norm_num, by norm_num, by decide, ?_⟩
  intro h
  rw [(by decide : assignChipValues 3 (1/1000000) (1/500000) =
    [1/1000000, 1/500000, 0])] at h
  rw [List.chain'_cons, List.chain'_cons] at h
  have := h.2.1
  norm_num at this

unseal Rat.add Rat.mul Rat.inv Rat.sub in
/-- C1 at the failing input: with chips `[1, 2]`, buy-in `$3`, small blind
`$1`, big blind `$2`, the single returned combination has
`actualTotal = $4` against `targetTotal = $3` — a full dollar of drift,
far beyond the claimed 1-cent tolerance. -/
theorem C1_tolerance_violated :
    ((calculateCombinations [1, 2] 3 1 2).map
      (fun c => (c.actualTotal, c.targetTotal))) = [(4, 3)] ∧
      ¬ (|(4 : ℚ) - 3| ≤ 1/100) :=
  ⟨by decide, by norm_num⟩

unseal Rat.add Rat.mul Rat.inv Rat.sub in
/-- C6 at the claimed boundary input: chips `[1]`, buy-in `$20`, small
blind `$0.10`, big blind `$0.20`.  The denomination is priced at `$0.10` as
claimed, but the quantity is 100 — not 200 — and the total is `$10`, half
the buy-in, because the two-group split makes the single group cover only
`buyIn / 2`. -/
theorem C6_single_denom_half_total :
    (calculateCombinations [1] 20 (1/10) (1/5)).map
      (fun c => (c.allocations.map ChipAllocation.quantity,
        c.allocations.map ChipAllocation.valuePerChip, c.actualTotal,
        c.targetTotal)) = [([100], [1/10], 10, 20)] := by decide

/-! ## Lemmas about the settlement engine -/

/-- A rational that is a whole number of cents. -/
def IsCent (q : ℚ) : Prop := ∃ k : ℤ, q = (k : ℚ) / 100

theorem isCent_round2 (x : ℚ) : IsCent (round2 x) := ⟨⌊x * 100 + 1/2⌋, rfl⟩

theorem isCent_neg {a : ℚ} (ha : IsCent a) : IsCent (-a) := by
  obtain ⟨k, rfl⟩ := ha
  exact ⟨-k, by push_cast; ring⟩

theorem isCent_sub {a b : ℚ} (ha : IsCent a) (hb : IsCent b) :
    IsCent (a - b) := by
  obtain ⟨j, rfl⟩ := ha
  obtain ⟨k, rfl⟩ := hb
  exact ⟨j - k, by push_cast; ring⟩

theorem isCent_min {a b : ℚ} (ha : IsCent a) (hb : IsCent b) :
    IsCent (min a b) := by
  rcases le_total a b with h | h
  · rw [min_eq_left h]; exact ha
  · rw [min_eq_right h]; exact hb

/-- `round2` is the identity on whole numbers of cents. -/
theorem round2_isCent_id {q : ℚ} (h : IsCent q) : round2 q = q := by
  obtain ⟨k, rfl⟩ := h
  unfold round2 jsRound
  rw [div_mul_cancel₀ _ (by norm_num : (100 : ℚ) ≠ 0), Int.floor_int_add]
  norm_num

/-- A whole number of cents is either at most 0 or at least one cent. -/
theorem cent_cases {q : ℚ} (h : IsCent q) : q ≤ 0 ∨ 1/100 ≤ q := by
  obtain ⟨k, rfl⟩ := h
  rcases le_or_lt k 0 with hk | hk
  · left
    have : (k : ℚ) ≤ 0 := by exact_mod_cast hk
    linarith
  · right
    have : (1 : ℚ) ≤ (k : ℚ) := by exact_mod_cast hk
    linarith

theorem txSum_append (l1 l2 : List Transaction) :
    txSum (l1 ++ l2) = txSum l1 + txSum l2 := by
  simp [txSum]

theorem debtSum_nonneg {l : List Debt}
    (h : ∀ x ∈ l, IsCent x.amount ∧ 1/100 ≤ x.amount) : 0 ≤ debtSum l := by
  refine List.sum_nonneg ?_
  intro a ha
  rcases List.mem_map.mp ha with ⟨x, hx, rfl⟩
  linarith [(h x hx).2]

theorem min_add_min (a b S : ℚ) (hb : 0 ≤ b) (hS : 0 ≤ S) :
    min a S + min b (S - min a S) = min (a + b) S := by
  rcases le_total a S with h | h
  · rw [min_eq_left h]
    rcases le_total b (S - a) with h2 | h2
    · rw [min_eq_left h2, min_eq_left (by linarith)]
    · rw [min_eq_right h2, min_eq_right (by linarith)]
      ring
  · rw [min_eq_right h]
    have h0 : S - S = 0 := by ring
    rw [h0, min_eq_right hb, min_eq_right (by linarith)]
    ring

/-- Invariant of the inner settlement loop: when the current debtor and all
creditors carry whole positive cent amounts, the transactions generated
while disposing of the debtor sum to `min(debt, total credit)`, the credit
removed equals that sum, and the remaining creditors again carry whole
positive cent amounts. -/
theorem settleOne_sum : ∀ (cs : List Debt) (d : Debt),
    IsCent d.amount → 1/100 ≤ d.amount →
    (∀ x ∈ cs, IsCent x.amount ∧ 1/100 ≤ x.amount) →
    txSum (settleOne d cs).1 = min d.amount (debtSum cs) ∧
      debtSum (settleOne d cs).2 =
        debtSum cs - min d.amount (debtSum cs) ∧
      (∀ x ∈ (settleOne d cs).2, IsCent x.amount ∧ 1/100 ≤ x.amount) := by
  intro cs
  induction cs with
  | nil =>
    intro d hd hdge _
    have h0 : min d.amount (debtSum []) = 0 := by
      rw [show debtSum [] = 0 from rfl]
      exact min_eq_right (by linarith)
    refine ⟨?_, ?_, ?_⟩
    · rw [h0]; rfl
    · rw [h0]; simp [settleOne, debtSum]
    · intro x hx; simp [settleOne] at hx
  | cons c cs ih =>
    intro d hd hdge hcs
    obtain ⟨hc, hcge⟩ := hcs c (List.mem_cons_self c cs)
    have hcs' : ∀ x ∈ cs, IsCent x.amount ∧ 1/100 ≤ x.amount :=
      fun x hx => hcs x (List.mem_cons_of_mem _ hx)
    have hmin : IsCent (min d.amount c.amount) := isCent_min hd hc
    have hminge : 1/100 ≤ min d.amount c.amount := le_min hdge hcge
    have hS : 0 ≤ debtSum cs := debtSum_nonneg hcs'
    have ha : round2 (min d.amount c.amount) = min d.amount c.amount :=
      round2_isCent_id hmin
    have hd2 : round2 (d.amount - min d.amount c.amount) =
        d.amount - min d.amount c.amount :=
      round2_isCent_id (isCent_sub hd hmin)
    have hc2 : round2 (c.amount - min d.amount c.amount) =
        c.amount - min d.amount c.amount :=
      round2_isCent_id (isCent_sub hc hmin)
    have hdS : debtSum (c :: cs) = c.amount + debtSum cs := by
      simp [debtSum]
    simp only [settleOne, ha, hd2, hc2]
    split
    · rename_i hdrop
      -- d's remainder dropped below the epsilon: min = d.amount
      have hmd : min d.amount c.amount = d.amount := by
        rcases min_le_left d.amount c.amount |>.lt_or_eq with hlt | heq
        · exfalso
          rcases cent_cases (isCent_sub hd hmin) with h' | h'
          · linarith [min_le_left d.amount c.amount]
          · linarith
        · exact heq
      split
      · rename_i hcdrop
        -- c's remainder also dropped: c.amount = d.amount
        have hmc : min d.amount c.amount = c.amount := by
          rcases cent_cases (isCent_sub hc hmin) with h' | h'
          · have := min_le_right d.amount c.amount
            linarith
          · linarith
        rw [if_pos (by linarith : 1/200 < min d.amount c.amount)]
        refine ⟨?_, ?_, hcs'⟩
        · show txSum [⟨d.name, c.name, min d.amount c.amount⟩] =
            min d.amount (debtSum (c :: cs))
          have : txSum [⟨d.name, c.name, min d.amount c.amount⟩] =
              min d.amount c.amount := by simp [txSum]
          rw [this, hmd, hdS, min_eq_left (by linarith)]
        · show debtSum cs = debtSum (c :: cs) - min d.amount (debtSum (c :: cs))
          rw [hdS, min_eq_left (by linarith)]
          have hdc : c.amount = d.amount := by rw [← hmc, hmd]
          linarith
      · rename_i hcstay
        -- c keeps a positive remainder
        have hcrem : 1/100 ≤ c.amount - min d.amount c.amount := by
          rcases cent_cases (isCent_sub hc hmin) with h' | h'
          · exfalso; exact hcstay (by linarith)
          · exact h'
        rw [if_pos (by linarith : 1/200 < min d.amount c.amount)]
        refine ⟨?_, ?_, ?_⟩
        · show txSum [⟨d.name, c.name, min d.amount c.amount⟩] =
            min d.amount (debtSum (c :: cs))
          have : txSum [⟨d.name, c.name, min d.amount c.amount⟩] =
              min d.amount c.amount := by simp [txSum]
          rw [this, hmd, hdS, min_eq_left (by linarith)]
        · show c.amount - min d.amount c.amount + debtSum cs =
            debtSum (c :: cs) - min d.amount (debtSum (c :: cs))
          have hdlec : d.amount ≤ c.amount :=
            hmd ▸ min_le_right d.amount c.amount
          rw [hmd, hdS, min_eq_left (by linarith)]
          ring
        · intro x hx
          rcases List.mem_cons.mp hx with hx' | hx'
          · subst hx'
            exact ⟨isCent_sub hc hmin, hcrem⟩
          · exact hcs' x hx'
    · rename_i hdstay
      -- d keeps a positive remainder: min = c.amount, recurse
      have hdrem : 1/100 ≤ d.amount - min d.amount c.amount := by
        rcases cent_cases (isCent_sub hd hmin) with h' | h'
        · exfalso; exact hdstay (by linarith)
        · exact h'
      have hmc : min d.amount c.amount = c.amount := by
        rcases le_total c.amount d.amount with h' | h'
        · exact min_eq_right h'
        · exfalso
          rw [min_eq_left h'] at hdrem
          linarith
      rw [hmc] at hdrem
      have key : c.amount + min (d.amount - c.amount) (debtSum cs) =
          min d.amount (c.amount + debtSum cs) := by
        rcases le_total (d.amount - c.amount) (debtSum cs) with h' | h'
        · rw [min_eq_left h', min_eq_left (by linarith)]
          ring
        · rw [min_eq_right h', min_eq_right (by linarith)]
      split
      · rename_i hcdrop
        obtain ⟨ih1, ih2, ih3⟩ :=
          ih ⟨d.name, d.amount - min d.amount c.amount⟩
            (isCent_sub hd hmin) (by rw [hmc]; exact hdrem) hcs'
        rw [if_pos (by linarith : 1/200 < min d.amount c.amount)]
        refine ⟨?_, ?_, ih3⟩
        · rw [txSum_append]
          have ht : txSum [⟨d.name, c.name, min d.amount c.amount⟩] =
              min d.amount c.amount := by simp [txSum]
          rw [ht, ih1, hdS, hmc]
          exact key
        · rw [ih2, hdS, hmc]
          linarith [key]
      · rename_i hcstay
        exfalso
        rcases cent_cases (isCent_sub hc hmin) with h' | h'
        · exact hcstay (by linarith)
        · linarith [min_le_right d.amount c.amount]

/-- The settlement loop transfers exactly `min(total debt, total credit)`
when all debtor and creditor amounts are whole positive cent amounts. -/
theorem settleLoop_sum : ∀ (ds cs : List Debt),
    (∀ x ∈ ds, IsCent x.amount ∧ 1/100 ≤ x.amount) →
    (∀ x ∈ cs, IsCent x.amount ∧ 1/100 ≤ x.amount) →
    txSum (settleLoop ds cs) = min (debtSum ds) (debtSum cs) := by
  intro ds
  induction ds with
  | nil =>
    intro cs _ hcs
    have : txSum (settleLoop [] cs) = 0 := rfl
    rw [this, show debtSum [] = 0 from rfl,
      min_eq_left (debtSum_nonneg hcs)]
  | cons d ds ih =>
    intro cs hds hcs
    obtain ⟨hd, hdge⟩ := hds d (List.mem_cons_self d ds)
    have hds' : ∀ x ∈ ds, IsCent x.amount ∧ 1/100 ≤ x.amount :=
      fun x hx => hds x (List.mem_cons_of_mem _ hx)
    obtain ⟨h1, h2, h3⟩ := settleOne_sum cs d hd hdge hcs
    have hSds : 0 ≤ debtSum ds := debtSum_nonneg hds'
    have hScs : 0 ≤ debtSum cs := debtSum_nonneg hcs
    simp only [settleLoop]
    rw [txSum_append, h1, ih (settleOne d cs).2 hds' h3, h2]
    have hdScons : debtSum (d :: ds) = d.amount + debtSum ds := by
      simp [debtSum]
    rw [hdScons]
    exact min_add_min d.amount (debtSum ds) (debtSum cs) hSds hScs

/-- Length bookkeeping for the inner settlement loop: the transactions
generated plus the creditors remaining never exceed the creditors supplied
plus one, the transactions generated never exceed the creditors supplied,
and creditors never increase. -/
theorem settleOne_bounds : ∀ (cs : List Debt) (d : Debt),
    (settleOne d cs).1.length + (settleOne d cs).2.length ≤ cs.length + 1 ∧
      (settleOne d cs).1.length ≤ cs.length ∧
      (settleOne d cs).2.length ≤ cs.length := by
  intro cs
  induction cs with
  | nil => intro d; simp [settleOne]
  | cons c cs ih =>
    intro d
    simp only [settleOne]
    split
    · split
      · split <;> simp <;> omega
      · split <;> simp <;> omega
    · split
      · obtain ⟨ihb1, ihb2, ihb3⟩ :=
          ih ⟨d.name, round2 (d.amount - round2 (min d.amount c.amount))⟩
        split <;> simp <;> omega
      · exfalso
        rename_i hd hc
        exact absurd ((settle_advance d.amount c.amount).resolve_left hd) hc

/-- The settlement loop produces at most `debtors + creditors - 1`
transactions. -/
theorem settleLoop_length_bound : ∀ (ds cs : List Debt),
    (settleLoop ds cs).length ≤ ds.length + cs.length - 1 := by
  intro ds
  induction ds with
  | nil => intro cs; simp [settleLoop]
  | cons d ds ih =>
    intro cs
    simp only [settleLoop]
    have hb := settleOne_bounds cs d
    have hr := ih (settleOne d cs).2
    rw [List.length_append]
    simp only [List.length_cons]
    omega

theorem mkSummaries_net_isCent (players : List Player) :
    ∀ s ∈ mkSummaries players, IsCent s.net := by
  intro s hs
  rcases List.mem_map.mp hs with ⟨p, _, rfl⟩
  exact isCent_round2 _

theorem mkDebtors_invariant (l : List PlayerSummary)
    (h : ∀ s ∈ l, IsCent s.net) :
    ∀ x ∈ mkDebtors l, IsCent x.amount ∧ 1/100 ≤ x.amount := by
  intro x hx
  rcases List.mem_map.mp hx with ⟨s, hs, rfl⟩
  obtain ⟨hsl, hflt⟩ := List.mem_filter.mp hs
  have hlt : s.net < -(1/200) := by simpa using hflt
  have hcent := h s hsl
  refine ⟨isCent_neg hcent, ?_⟩
  rcases cent_cases (isCent_neg hcent) with h2 | h2
  · linarith
  · exact h2

theorem mkCreditors_invariant (l : List PlayerSummary)
    (h : ∀ s ∈ l, IsCent s.net) :
    ∀ x ∈ mkCreditors l, IsCent x.amount ∧ 1/100 ≤ x.amount := by
  intro x hx
  rcases List.mem_map.mp hx with ⟨s, hs, rfl⟩
  obtain ⟨hsl, hflt⟩ := List.mem_filter.mp hs
  have hlt : 1/200 < s.net := by simpa using hflt
  have hcent := h s hsl
  refine ⟨hcent, ?_⟩
  rcases cent_cases hcent with h2 | h2
  · linarith
  · exact h2

theorem sum_map_neg_net (l : List PlayerSummary) :
    (l.map (fun s => -s.net)).sum = -((l.map PlayerSummary.net).sum) := by
  induction l with
  | nil => simp
  | cons a l ih => simp [ih]; ring

theorem debtSum_mkDebtors (l : List PlayerSummary) :
    debtSum (mkDebtors l) =
      -(((l.filter (fun p => p.net < -(1/200))).map PlayerSummary.net).sum) := by
  unfold debtSum mkDebtors
  rw [List.map_map]
  exact sum_map_neg_net _

theorem debtSum_mkCreditors (l : List PlayerSummary) :
    debtSum (mkCreditors l) =
      ((l.filter (fun p => 1/200 < p.net)).map PlayerSummary.net).sum := by
  unfold debtSum mkCreditors
  rw [List.map_map]
  rfl

theorem debtSum_insertionSort (l : List Debt) :
    debtSum (List.insertionSort (fun a b => b.amount < a.amount) l) =
      debtSum l := by
  unfold debtSum
  exact List.Perm.sum_eq
    ((List.perm_insertionSort _ l).map Debt.amount)

theorem filter_net_neg_eq (l : List PlayerSummary)
    (h : ∀ s ∈ l, IsCent s.net) :
    l.filter (fun p => p.net < -(1/200)) = l.filter (fun p => p.net < 0) := by
  apply List.filter_congr
  intro s hs
  have hcent := h s hs
  simp only [decide_eq_decide]
  constructor
  · intro h'
    linarith
  · intro h'
    rcases cent_cases (isCent_neg hcent) with h2 | h2
    · linarith
    · linarith

theorem filter_net_pos_eq (l : List PlayerSummary)
    (h : ∀ s ∈ l, IsCent s.net) :
    l.filter (fun p => 1/200 < p.net) = l.filter (fun p => 0 < p.net) := by
  apply List.filter_congr
  intro s hs
  have hcent := h s hs
  simp only [decide_eq_decide]
  constructor
  · intro h'
    linarith
  · intro h'
    rcases cent_cases hcent with h2 | h2
    · linarith
    · linarith

theorem neg_sum_nonneg (l : List PlayerSummary) :
    ((l.filter (fun p => p.net < 0)).map PlayerSummary.net).sum ≤ 0 := by
  induction l with
  | nil => simp
  | cons a l ih =>
    by_cases ha : a.net < 0
    · simp [List.filter_cons, ha]
      linarith
    · simp [List.filter_cons, ha]
      exact ih

/-- C2 (amended): for every player list, the sum of the settlement
transaction amounts is exactly `min(sum of positive nets, |sum of negative
nets|)`.  When the game is balanced (both totals coincide) this equals both
sides, as the claim states; for unbalanced inputs it equals the smaller
side only. -/
theorem C2_txSum_eq_min (players : List Player) :
    txSum (calculateSettlement players).transactions =
      min ((((calculateSettlement players).summaries.filter
          (fun p => 0 < p.net)).map PlayerSummary.net).sum)
        |(((calculateSettlement players).summaries.filter
          (fun p => p.net < 0)).map PlayerSummary.net).sum| := by
  have hcent := mkSummaries_net_isCent players
  have htx : (calculateSettlement players).transactions =
      settleLoop
        (List.insertionSort (fun a b => b.amount < a.amount)
          (mkDebtors (mkSummaries players)))
        (List.insertionSort (fun a b => b.amount < a.amount)
          (mkCreditors (mkSummaries players))) := rfl
  have hsm : (calculateSettlement players).summaries =
      mkSummaries players := rfl
  rw [htx, hsm]
  have hdinv : ∀ x ∈ List.insertionSort (fun a b => b.amount < a.amount)
      (mkDebtors (mkSummaries players)),
      IsCent x.amount ∧ 1/100 ≤ x.amount := by
    intro x hx
    exact mkDebtors_invariant _ hcent x
      ((List.perm_insertionSort _ _).mem_iff.mp hx)
  have hcinv : ∀ x ∈ List.insertionSort (fun a b => b.amount < a.amount)
      (mkCreditors (mkSummaries players)),
      IsCent x.amount ∧ 1/100 ≤ x.amount := by
    intro x hx
    exact mkCreditors_invariant _ hcent x
      ((List.perm_insertionSort _ _).mem_iff.mp hx)
  rw [settleLoop_sum _ _ hdinv hcinv, debtSum_insertionSort,
    debtSum_insertionSort, debtSum_mkDebtors, debtSum_mkCreditors,
    filter_net_neg_eq _ hcent, filter_net_pos_eq _ hcent,
    abs_of_nonpos (neg_sum_nonneg (mkSummaries players)), min_comm]

/-- C8: the number of settlement transactions is at most
`(number of debtors) + (number of creditors) - 1`, with debtors the players
whose net is below `-0.005` and creditors those whose net exceeds `0.005`
(natural-number subtraction). -/
theorem C8_transaction_count_bound (players : List Player) :
    (calculateSettlement players).transactions.length ≤
      ((calculateSettlement players).summaries.filter
        (fun p => p.net < -(1/200))).length +
      ((calculateSettlement players).summaries.filter
        (fun p => 1/200 < p.net)).length - 1 := by
  have htx : (calculateSettlement players).transactions =
      settleLoop
        (List.insertionSort (fun a b => b.amount < a.amount)
          (mkDebtors (mkSummaries players)))
        (List.insertionSort (fun a b => b.amount < a.amount)
          (mkCreditors (mkSummaries players))) := rfl
  have hsm : (calculateSettlement players).summaries =
      mkSummaries players := rfl
  rw [htx, hsm]
  refine le_trans (settleLoop_length_bound _ _) ?_
  rw [List.length_insertionSort, List.length_insertionSort]
  unfold mkDebtors mkCreditors
  rw [List.length_map, List.length_map]

unseal Rat.add Rat.mul Rat.inv Rat.sub in
/-- C2 counterexample: a single player who bought in for \$20 and cashed
out \$35 has positive net \$15, but there is no debtor, so no transaction
is generated: the transaction sum 0 differs from the positive-net sum 15
by far more than one cent. -/
theorem C2_counterexample :
    (calculateSettlement [⟨"1", "A", [20], 35⟩]).transactions = [] ∧
      ((((calculateSettlement [⟨"1", "A", [20], 35⟩]).summaries.filter
        (fun p => 0 < p.net)).map PlayerSummary.net).sum) = 15 ∧
      ¬ (|txSum (calculateSettlement [⟨"1", "A", [20], 35⟩]).transactions -
          15| ≤ 1/100) := by
  refine ⟨by decide, by decide, ?_⟩
  rw [(by decide : txSum
    (calculateSettlement [⟨"1", "A", [20], 35⟩]).transactions = 0)]
  norm_num
